import Mathlib

/-!
Verification of the `ensured_bufreader` buffered-reading adapter
(`src/src/lib.rs`): a shallow embedding of `EnsuredBufReader` and its
operations, together with proofs of the specified properties.

Modelling notes.
* Bytes are `Nat`; the byte store `buf` is a `List Nat` whose length is
  the capacity.
* The underlying `std::io::Read` source is modelled by `Source`: the
  remaining byte stream `data`, plus a behaviour schedule `sched`.  Each
  read call consumes one schedule entry: `Resp.bytes k` produces up to
  `k` bytes (capped by the free space and by the data remaining) and
  `Resp.ioError` reports an I/O error.  When the schedule is exhausted
  the source behaves greedily, producing `min space data.length` bytes.
  A source is well formed (`Source.wf`) when every scheduled response
  produces at least one byte and never errs — this is the contract the
  spec assumes of a conforming source (it returns 0 only at end of
  stream).
* The `while` loop inside `fill_buf_to_expected_size` is embedded with
  an explicit iteration bound (`fillLoopFuel`).  Every productive
  iteration pulls at least one byte out of the source, so
  `data.length + 1` iterations always suffice; the lemmas below carry
  this bound as a hypothesis, and `fill_buf_to_expected_size` invokes
  the loop with exactly that bound.
-/

/-- One response of the underlying reader: produce up to `k` bytes, or
report an I/O error. -/
inductive Resp where
  | bytes (k : Nat)
  | ioError
deriving DecidableEq

/-- The underlying `Read` source: the remaining byte stream together
with a schedule of per-call behaviours. -/
structure Source where
  data : List Nat
  sched : List Resp
deriving DecidableEq

/-- Outcome of one `read` call on the source. -/
inductive ReadOutcome where
  | ok (bs : List Nat)
  | err
deriving DecidableEq

/-- One `read` call on the source with `space` bytes of room in the
destination slice: returns the bytes produced (or an error) and the
source's successor state. -/
def readSource (s : Source) (space : Nat) : ReadOutcome × Source :=
  match s.sched with
  | [] =>
    let m := min space s.data.length
    (ReadOutcome.ok (s.data.take m), ⟨s.data.drop m, []⟩)
  | Resp.bytes k :: rest =>
    let m := min (min k space) s.data.length
    (ReadOutcome.ok (s.data.take m), ⟨s.data.drop m, rest⟩)
  | Resp.ioError :: rest => (ReadOutcome.err, ⟨s.data, rest⟩)

/-- A conforming source: every scheduled response offers at least one
byte and none is an error (so 0 produced bytes signals end of stream,
exactly the contract `EnsuredBufReader` relies on). -/
def Source.wf (s : Source) : Bool :=
  s.sched.all fun x =>
    match x with
    | Resp.bytes k => decide (1 ≤ k)
    | Resp.ioError => false

/-- The reader state of `EnsuredBufReader`: inner source, byte store,
read position `pos`, fill boundary `cap`, and the configured
`ensured_size`. -/
structure EnsuredBufReader where
  inner : Source
  buf : List Nat
  pos : Nat
  cap : Nat
  ensured_size : Nat
deriving DecidableEq

/-- Result of a fallible reader operation, mirroring `io::Result`:
success, the `ErrorKind::InvalidInput` error raised when
`expected_size` exceeds the capacity, or a propagated source error. -/
inductive FillResult where
  | ok
  | invalidInput
  | ioError
deriving DecidableEq

namespace EnsuredBufReader

/-- `current_bytes`: count of bytes in the buffer (`cap - pos`). -/
def current_bytes (r : EnsuredBufReader) : Nat := r.cap - r.pos

/-- `buffer`: the valid region `buf[pos..cap]`. -/
def buffer (r : EnsuredBufReader) : List Nat :=
  (r.buf.drop r.pos).take (r.cap - r.pos)

/-- `get_capacity`: length of the byte store. -/
def get_capacity (r : EnsuredBufReader) : Nat := r.buf.length

/-- `get_ensured_size`. -/
def get_ensured_size (r : EnsuredBufReader) : Nat := r.ensured_size

/-- `move_buf_to_head`: slide the valid region to the start of the
store.  `copy_within(pos..cap, 0)` leaves positions `cap - pos ..`
unchanged, so the new store is `buf[pos..cap] ++ buf[cap - pos ..]`. -/
def move_buf_to_head (r : EnsuredBufReader) : EnsuredBufReader :=
  if r.pos = r.cap then { r with pos := 0, cap := 0 }
  else
    { r with
      buf := (r.buf.drop r.pos).take (r.cap - r.pos) ++ r.buf.drop (r.cap - r.pos),
      cap := r.cap - r.pos,
      pos := 0 }

/-- Overwrite `l[p .. p + bs.length]` with `bs`, as the source's write
into `buf[cap..]` does. -/
def writeBytes (l : List Nat) (p : Nat) (bs : List Nat) : List Nat :=
  l.take p ++ bs ++ l.drop (p + bs.length)

/-- The fill loop of `fill_buf_to_expected_size`: while the buffer
holds fewer than `expected` bytes, read from the source into
`buf[cap..]`; a 0-byte response means end of stream and exits.  `fuel`
bounds the iterations; `fill_buf_to_expected_size` passes
`data.length + 1`, which always suffices since each productive
iteration removes at least one byte from `data`. -/
def fillLoopFuel : Nat → EnsuredBufReader → Nat → FillResult × EnsuredBufReader
  | 0, r, _ => (FillResult.ok, r)
  | fuel + 1, r, expected =>
    if expected ≤ r.cap - r.pos then (FillResult.ok, r)
    else
      match readSource r.inner (r.buf.length - r.cap) with
      | (ReadOutcome.err, s) => (FillResult.ioError, { r with inner := s })
      | (ReadOutcome.ok bs, s) =>
        if bs.length = 0 then (FillResult.ok, { r with inner := s })
        else
          fillLoopFuel fuel
            { r with
              inner := s,
              buf := writeBytes r.buf r.cap bs,
              cap := r.cap + bs.length }
            expected

/-- `fill_buf_to_expected_size`: fast path if the valid region already
holds `expected_size` bytes; `InvalidInput` if `expected_size` exceeds
the capacity; otherwise slide when the rightward space is short, then
run the fill loop.  Returns the result kind and the updated reader (the
returned view on success is `buffer` of that reader). -/
def fill_buf_to_expected_size (r : EnsuredBufReader) (expected_size : Nat) :
    FillResult × EnsuredBufReader :=
  if r.current_bytes ≥ expected_size then (FillResult.ok, r)
  else if r.buf.length < expected_size then (FillResult.invalidInput, r)
  else
    let r1 := if r.buf.length - r.pos < expected_size then r.move_buf_to_head else r
    fillLoopFuel (r1.inner.data.length + 1) r1 expected_size

/-- `BufRead::fill_buf`: `fill_buf_to_expected_size(ensured_size)`. -/
def fill_buf (r : EnsuredBufReader) : FillResult × EnsuredBufReader :=
  r.fill_buf_to_expected_size r.ensured_size

/-- `BufRead::consume`: `none` models the assertion failure (panic)
when `amt` exceeds the bytes in the buffer. -/
def consume (r : EnsuredBufReader) (amt : Nat) : Option EnsuredBufReader :=
  if amt ≤ r.current_bytes then some { r with pos := r.pos + amt } else none

/-- `Read::read` into a destination of length `destLen`: fill via
`fill_buf`, copy `min (view.length) destLen` bytes (the behaviour of
`<&[u8] as Read>::read`), consume them, return the count and the bytes
copied. -/
def read (r : EnsuredBufReader) (destLen : Nat) :
    FillResult × Nat × List Nat × EnsuredBufReader :=
  match r.fill_buf with
  | (FillResult.ok, r1) =>
    let n := min r1.buffer.length destLen
    (FillResult.ok, n, r1.buffer.take n, { r1 with pos := r1.pos + n })
  | (res, r1) => (res, 0, [], r1)

/-- Default capacity (8 kiB). -/
def DEFAULT_BUFFER_SIZE : Nat := 8 * 1024

/-- Default ensured size (128 B). -/
def DEFAULT_ENSURED_BYTES : Nat := 128

/-- `with_capacity_and_ensured_size`: `none` models the constructor
panics (`ensured_size = 0`, or `capacity < ensured_size`). -/
def with_capacity_and_ensured_size (capacity ensured_size : Nat) (inner : Source) :
    Option EnsuredBufReader :=
  if ensured_size = 0 then none
  else if capacity < ensured_size then none
  else some ⟨inner, List.replicate capacity 0, 0, 0, ensured_size⟩

/-- `new`: default capacity and ensured size. -/
def new (inner : Source) : Option EnsuredBufReader :=
  with_capacity_and_ensured_size DEFAULT_BUFFER_SIZE DEFAULT_ENSURED_BYTES inner

/-- `from_buffer_and_ensured_size`: caller-supplied store. -/
def from_buffer_and_ensured_size (buf : List Nat) (ensured_size : Nat) (inner : Source) :
    Option EnsuredBufReader :=
  if ensured_size = 0 then none
  else if buf.length < ensured_size then none
  else some ⟨inner, buf, 0, 0, ensured_size⟩

/-- `from_buffer`: caller-supplied store, default ensured size. -/
def from_buffer (buf : List Nat) (inner : Source) : Option EnsuredBufReader :=
  if buf.length < DEFAULT_ENSURED_BYTES then none
  else from_buffer_and_ensured_size buf DEFAULT_ENSURED_BYTES inner

/-- `from_mut_ref_and_ensured_size`: borrowed store (same checks and
state as `from_buffer_and_ensured_size`). -/
def from_mut_ref_and_ensured_size (buf : List Nat) (ensured_size : Nat) (inner : Source) :
    Option EnsuredBufReader :=
  if ensured_size = 0 then none
  else if buf.length < ensured_size then none
  else some ⟨inner, buf, 0, 0, ensured_size⟩

/-- `from_mut_ref`: borrowed store, default ensured size. -/
def from_mut_ref (buf : List Nat) (inner : Source) : Option EnsuredBufReader :=
  if buf.length < DEFAULT_ENSURED_BYTES then none
  else from_mut_ref_and_ensured_size buf DEFAULT_ENSURED_BYTES inner

/-- The cursor invariant `0 ≤ pos ≤ cap ≤ capacity`. -/
def GoodState (r : EnsuredBufReader) : Prop :=
  r.pos ≤ r.cap ∧ r.cap ≤ r.buf.length

instance (r : EnsuredBufReader) : Decidable (GoodState r) :=
  decidable_of_iff (r.pos ≤ r.cap ∧ r.cap ≤ r.buf.length) Iff.rfl

/-- States reachable from `r0` through the public mutating operations. -/
inductive Reachable (r0 : EnsuredBufReader) : EnsuredBufReader → Prop where
  | refl : Reachable r0 r0
  | fill_step (e : Nat) (res : FillResult) (r r' : EnsuredBufReader) :
      Reachable r0 r → r.fill_buf_to_expected_size e = (res, r') → Reachable r0 r'
  | consume_step (a : Nat) (r r' : EnsuredBufReader) :
      Reachable r0 r → r.consume a = some r' → Reachable r0 r'
  | read_step (d n : Nat) (out : List Nat) (res : FillResult) (r r' : EnsuredBufReader) :
      Reachable r0 r → r.read d = (res, n, out, r') → Reachable r0 r'

/-- Repeatedly call `Read::read`, the `i`-th call with a destination of
length `ds i`, until a call returns 0 (flag `true`) or an error or the
iteration bound is hit (flag `false`); returns the concatenation of all
bytes delivered. -/
def drain : Nat → EnsuredBufReader → (Nat → Nat) → Nat → List Nat × Bool
  | 0, _, _, _ => ([], false)
  | fuel + 1, r, ds, i =>
    match r.read (ds i) with
    | (FillResult.ok, n, chunk, r') =>
      if n = 0 then ([], true)
      else
        let rest := drain fuel r' ds (i + 1)
        (chunk ++ rest.1, rest.2)
    | _ => ([], false)

end EnsuredBufReader

open EnsuredBufReader

/-- A small concrete source serving the bytes `[1, 2, 3]` greedily. -/
def sampleSource : Source := ⟨[1, 2, 3], []⟩

/-- The reader built by `with_capacity_and_ensured_size 4 2` over
`sampleSource`. -/
def sampleReader : EnsuredBufReader := ⟨sampleSource, [0, 0, 0, 0], 0, 0, 2⟩

/-- `sampleReader` after one `fill_buf`: all three bytes pulled in. -/
def filledReader : EnsuredBufReader := ⟨⟨[], []⟩, [1, 2, 3, 0], 0, 3, 2⟩

/-- A reader whose source reports an I/O error on the next call. -/
def errReader : EnsuredBufReader := ⟨⟨[7, 8], [Resp.ioError]⟩, [0, 0, 0], 0, 0, 1⟩

/-- `errReader` after the failing fill attempt (schedule consumed). -/
def errReaderAfter : EnsuredBufReader := ⟨⟨[7, 8], []⟩, [0, 0, 0], 0, 0, 1⟩

/-- A drained reader with capacity 2 holding one buffered byte. -/
def smallReader : EnsuredBufReader := ⟨⟨[], []⟩, [9, 9], 0, 1, 1⟩

/-- A drained reader with two buffered bytes. -/
def midReader : EnsuredBufReader := ⟨⟨[], []⟩, [5, 6], 0, 2, 1⟩

/-! ### Facts about the source model -/

lemma readSource_err {s : Source} {sp : Nat} {s' : Source}
    (h : readSource s sp = (ReadOutcome.err, s')) : s'.data = s.data := by
  match hs : s.sched with
  | [] => simp [readSource, hs] at h
  | Resp.bytes k :: rest => simp [readSource, hs] at h
  | Resp.ioError :: rest =>
    simp only [readSource, hs, Prod.mk.injEq, true_and] at h
    rw [← h]

lemma readSource_ok {s : Source} {sp : Nat} {bs : List Nat} {s' : Source}
    (h : readSource s sp = (ReadOutcome.ok bs, s')) :
    ∃ m, m ≤ sp ∧ m ≤ s.data.length ∧ bs = s.data.take m ∧ s'.data = s.data.drop m := by
  match hs : s.sched with
  | [] =>
    simp only [readSource, hs, Prod.mk.injEq, ReadOutcome.ok.injEq] at h
    exact ⟨min sp s.data.length, Nat.min_le_left _ _, Nat.min_le_right _ _,
      h.1.symm, by rw [← h.2]⟩
  | Resp.bytes k :: rest =>
    simp only [readSource, hs, Prod.mk.injEq, ReadOutcome.ok.injEq] at h
    exact ⟨min (min k sp) s.data.length,
      le_trans (Nat.min_le_left _ _) (Nat.min_le_right _ _), Nat.min_le_right _ _,
      h.1.symm, by rw [← h.2]⟩
  | Resp.ioError :: rest => simp [readSource, hs] at h

lemma readSource_ok_len {s : Source} {sp : Nat} {bs : List Nat} {s' : Source}
    (h : readSource s sp = (ReadOutcome.ok bs, s')) :
    bs = s.data.take bs.length ∧ s'.data = s.data.drop bs.length ∧
      bs.length ≤ sp ∧ s'.data.length + bs.length = s.data.length := by
  obtain ⟨m, hm1, hm2, hbs, hd⟩ := readSource_ok h
  have hlen : bs.length = m := by
    rw [hbs, List.length_take, Nat.min_eq_left hm2]
  refine ⟨by rw [hlen]; exact hbs, by rw [hlen]; exact hd, by omega, ?_⟩
  rw [hd, List.length_drop]
  omega

lemma readSource_wf {s : Source} (sp : Nat) (h : s.wf = true) :
    (readSource s sp).2.wf = true ∧ (readSource s sp).1 ≠ ReadOutcome.err := by
  match hs : s.sched with
  | [] => simp [readSource, hs, Source.wf]
  | Resp.bytes k :: rest =>
    simp only [Source.wf, hs, List.all_cons, Bool.and_eq_true] at h
    simp [readSource, hs, Source.wf, h.2]
  | Resp.ioError :: rest => simp [Source.wf, hs] at h

lemma readSource_pos {s : Source} {sp : Nat} {bs : List Nat} {s' : Source}
    (hwf : s.wf = true) (hd : s.data ≠ []) (hsp : 1 ≤ sp)
    (h : readSource s sp = (ReadOutcome.ok bs, s')) : bs ≠ [] := by
  have hdl : 0 < s.data.length := List.length_pos.mpr hd
  match hs : s.sched with
  | [] =>
    simp only [readSource, hs, Prod.mk.injEq, ReadOutcome.ok.injEq] at h
    rw [← h.1]
    apply List.ne_nil_of_length_pos
    rw [List.length_take]
    omega
  | Resp.bytes k :: rest =>
    simp only [Source.wf, hs, List.all_cons, Bool.and_eq_true, decide_eq_true_eq] at hwf
    simp only [readSource, hs, Prod.mk.injEq, ReadOutcome.ok.injEq] at h
    rw [← h.1]
    apply List.ne_nil_of_length_pos
    rw [List.length_take]
    have hk : 1 ≤ k := hwf.1
    omega
  | Resp.ioError :: rest => simp [Source.wf, hs] at hwf

/-! ### Facts about the valid region -/

namespace EnsuredBufReader

lemma buffer_length {r : EnsuredBufReader} (h : r.GoodState) :
    r.buffer.length = r.cap - r.pos := by
  obtain ⟨h1, h2⟩ := h
  simp only [buffer, List.length_take, List.length_drop]
  omega

lemma buffer_consume (r : EnsuredBufReader) (n : Nat) :
    ({ r with pos := r.pos + n } : EnsuredBufReader).buffer = r.buffer.drop n := by
  simp only [buffer, List.drop_take, List.drop_drop]
  congr 1
  omega

lemma move_buf_to_head_spec {r : EnsuredBufReader} (h : r.GoodState) :
    r.move_buf_to_head.pos = 0 ∧ r.move_buf_to_head.cap = r.cap - r.pos ∧
      r.move_buf_to_head.buf.length = r.buf.length ∧
      r.move_buf_to_head.buffer = r.buffer ∧
      r.move_buf_to_head.inner = r.inner ∧
      r.move_buf_to_head.ensured_size = r.ensured_size := by
  obtain ⟨h1, h2⟩ := h
  by_cases hpc : r.pos = r.cap
  · unfold move_buf_to_head
    simp [hpc, buffer]
  · have hv : ((r.buf.drop r.pos).take (r.cap - r.pos)).length = r.cap - r.pos := by
      simp only [List.length_take, List.length_drop]
      omega
    have hb : r.move_buf_to_head =
        { r with
          buf := (r.buf.drop r.pos).take (r.cap - r.pos) ++ r.buf.drop (r.cap - r.pos),
          cap := r.cap - r.pos, pos := 0 } := by
      unfold move_buf_to_head
      rw [if_neg hpc]
    rw [hb]
    refine ⟨rfl, rfl, ?_, ?_, rfl, rfl⟩
    · simp only [List.length_append, hv, List.length_drop]
      omega
    · simp only [buffer]
      rw [List.drop_zero, Nat.sub_zero, List.take_left' hv]

lemma writeBytes_length {l : List Nat} {p : Nat} {bs : List Nat}
    (h : p + bs.length ≤ l.length) : (writeBytes l p bs).length = l.length := by
  simp only [writeBytes, List.length_append, List.length_take, List.length_drop]
  omega

lemma buffer_writeBytes {l : List Nat} {pos cap : Nat} {bs : List Nat}
    (h1 : pos ≤ cap) (h2 : cap + bs.length ≤ l.length) :
    ((writeBytes l cap bs).drop pos).take (cap + bs.length - pos) =
      (l.drop pos).take (cap - pos) ++ bs := by
  have hc : cap ≤ l.length := by omega
  have htl : (l.take cap).length = cap := by
    rw [List.length_take, Nat.min_eq_left hc]
  have hXlen : ((l.take cap).drop pos ++ bs).length = cap + bs.length - pos := by
    simp only [List.length_append, List.length_drop, htl]
    omega
  unfold writeBytes
  rw [List.drop_append_eq_append_drop, List.drop_append_eq_append_drop, htl,
    Nat.sub_eq_zero_of_le h1, List.drop_zero,
    show pos - (l.take cap ++ bs).length = 0 by
      simp only [List.length_append, htl]
      omega,
    List.drop_zero, List.take_append_eq_append_take, hXlen, Nat.sub_self, List.take_zero,
    List.append_nil,
    List.take_of_length_le
      (le_of_le_of_eq (Nat.le_refl _) hXlen : ((l.take cap).drop pos ++ bs).length ≤ _),
    List.drop_take]

/-! ### The fill loop -/

lemma fillLoopFuel_general :
    ∀ (fuel : Nat) (r : EnsuredBufReader) (e : Nat) (res : FillResult) (r' : EnsuredBufReader),
      r.inner.data.length < fuel → r.GoodState → r.pos + e ≤ r.buf.length →
      fillLoopFuel fuel r e = (res, r') →
      r'.pos = r.pos ∧ r'.buf.length = r.buf.length ∧
        r'.ensured_size = r.ensured_size ∧ r'.GoodState ∧
        res ≠ FillResult.invalidInput ∧
        ∃ m, m ≤ r.inner.data.length ∧
          r'.buffer = r.buffer ++ r.inner.data.take m ∧
          r'.inner.data = r.inner.data.drop m := by
  intro fuel
  induction fuel with
  | zero =>
    intro r e res r' hf
    omega
  | succ fuel ih =>
    intro r e res r' hf hgs hsp heq
    rw [fillLoopFuel] at heq
    by_cases hfast : e ≤ r.cap - r.pos
    · rw [if_pos hfast] at heq
      simp only [Prod.mk.injEq] at heq
      obtain ⟨h1, h2⟩ := heq
      subst h1
      subst h2
      exact ⟨rfl, rfl, rfl, hgs, by simp, 0, Nat.zero_le _, by simp, by simp⟩
    · rw [if_neg hfast] at heq
      rcases hrs : readSource r.inner (r.buf.length - r.cap) with ⟨o, s⟩
      rw [hrs] at heq
      cases o with
      | err =>
        dsimp only at heq
        simp only [Prod.mk.injEq] at heq
        obtain ⟨h1, h2⟩ := heq
        subst h1
        subst h2
        refine ⟨rfl, rfl, rfl, hgs, by simp, 0, Nat.zero_le _, by simp [buffer], ?_⟩
        rw [List.drop_zero]
        exact readSource_err hrs
      | ok bs =>
        obtain ⟨n, hnsp, hnle, hbs, hsd⟩ := readSource_ok hrs
        have hbslen : bs.length = n := by
          rw [hbs, List.length_take, Nat.min_eq_left hnle]
        dsimp only at heq
        by_cases hz : bs.length = 0
        · rw [if_pos hz] at heq
          simp only [Prod.mk.injEq] at heq
          obtain ⟨h1, h2⟩ := heq
          subst h1
          subst h2
          refine ⟨rfl, rfl, rfl, hgs, by simp, 0, Nat.zero_le _, by simp [buffer], ?_⟩
          rw [List.drop_zero, hsd]
          have : n = 0 := by omega
          rw [this, List.drop_zero]
        · rw [if_neg hz] at heq
          have hcap2 : r.cap + bs.length ≤ r.buf.length := by
            have := hgs.2
            omega
          have hlen2 : (writeBytes r.buf r.cap bs).length = r.buf.length :=
            writeBytes_length hcap2
          have hgs2 :
              ({ r with
                 inner := s,
                 buf := writeBytes r.buf r.cap bs,
                 cap := r.cap + bs.length } : EnsuredBufReader).GoodState := by
            refine ⟨?_, ?_⟩
            · have := hgs.1
              show r.pos ≤ r.cap + bs.length
              omega
            · show r.cap + bs.length ≤ (writeBytes r.buf r.cap bs).length
              omega
          have hf2 : s.data.length < fuel := by
            rw [hsd, List.length_drop]
            omega
          have hsp2 : r.pos + e ≤ (writeBytes r.buf r.cap bs).length := by
            omega
          obtain ⟨p1, p2, p3, p4, p5, m', hm'le, hb', hd'⟩ :=
            ih _ e res r' hf2 hgs2 hsp2 heq
          have hbuf2 :
              ({ r with
                 inner := s,
                 buf := writeBytes r.buf r.cap bs,
                 cap := r.cap + bs.length } : EnsuredBufReader).buffer =
                r.buffer ++ bs := by
            show ((writeBytes r.buf r.cap bs).drop r.pos).take (r.cap + bs.length - r.pos) = _
            exact buffer_writeBytes hgs.1 hcap2
          have hm'le2 : m' ≤ s.data.length := hm'le
          refine ⟨p1, by rw [p2, hlen2], p3, p4, p5, n + m', ?_, ?_, ?_⟩
          · rw [hsd, List.length_drop] at hm'le2
            omega
          · rw [hb', hbuf2, List.append_assoc, hsd, hbs, ← List.take_add]
          · rw [hd', hsd, List.drop_drop]

lemma fillLoopFuel_wf :
    ∀ (fuel : Nat) (r : EnsuredBufReader) (e : Nat),
      r.inner.data.length < fuel → r.GoodState → r.pos + e ≤ r.buf.length →
      r.inner.wf = true →
      ∃ r', fillLoopFuel fuel r e = (FillResult.ok, r') ∧ r'.inner.wf = true ∧
        min e (r.cap - r.pos + r.inner.data.length) ≤ r'.cap - r'.pos := by
  intro fuel
  induction fuel with
  | zero =>
    intro r e hf
    omega
  | succ fuel ih =>
    intro r e hf hgs hsp hwf
    rw [fillLoopFuel]
    by_cases hfast : e ≤ r.cap - r.pos
    · rw [if_pos hfast]
      exact ⟨r, rfl, hwf, le_trans (Nat.min_le_left _ _) hfast⟩
    · rw [if_neg hfast]
      have hspace : 1 ≤ r.buf.length - r.cap := by
        have h1 := hgs.1
        have h2 := hgs.2
        omega
      rcases hrs : readSource r.inner (r.buf.length - r.cap) with ⟨o, s⟩
      have hwfs := readSource_wf (r.buf.length - r.cap) hwf
      rw [hrs] at hwfs
      cases o with
      | err => exact absurd rfl hwfs.2
      | ok bs =>
        dsimp only
        obtain ⟨n, hnsp, hnle, hbs, hsd⟩ := readSource_ok hrs
        have hbslen : bs.length = n := by
          rw [hbs, List.length_take, Nat.min_eq_left hnle]
        by_cases hdat : r.inner.data = []
        · have hn0 : bs.length = 0 := by
            rw [hbslen]
            rw [hdat] at hnle
            simpa using hnle
          rw [if_pos hn0]
          refine ⟨_, rfl, hwfs.1, ?_⟩
          rw [hdat]
          simp only [List.length_nil, Nat.add_zero]
          exact Nat.min_le_right _ _
        · have hbne : bs ≠ [] := readSource_pos hwf hdat hspace hrs
          have hz : ¬ bs.length = 0 := by
            simpa using hbne
          rw [if_neg hz]
          have hcap2 : r.cap + bs.length ≤ r.buf.length := by
            have := hgs.2
            omega
          have hlen2 : (writeBytes r.buf r.cap bs).length = r.buf.length :=
            writeBytes_length hcap2
          have hf2 : s.data.length < fuel := by
            rw [hsd, List.length_drop]
            omega
          have hgs2 :
              ({ r with
                 inner := s,
                 buf := writeBytes r.buf r.cap bs,
                 cap := r.cap + bs.length } : EnsuredBufReader).GoodState := by
            refine ⟨?_, ?_⟩
            · have := hgs.1
              show r.pos ≤ r.cap + bs.length
              omega
            · show r.cap + bs.length ≤ (writeBytes r.buf r.cap bs).length
              omega
          have hsp2 :
              ({ r with
                 inner := s,
                 buf := writeBytes r.buf r.cap bs,
                 cap := r.cap + bs.length } : EnsuredBufReader).pos + e ≤
                (writeBytes r.buf r.cap bs).length := by
            show r.pos + e ≤ _
            omega
          obtain ⟨r', hr', hwf', hmin⟩ := ih _ e hf2 hgs2 hsp2 hwfs.1
          refine ⟨r', hr', hwf', ?_⟩
          have harith : r.cap + bs.length - r.pos + s.data.length =
              r.cap - r.pos + r.inner.data.length := by
            rw [hsd, List.length_drop]
            have := hgs.1
            omega
          rw [← harith]
          exact hmin

/-! ### `fill_buf_to_expected_size` -/

lemma fill_general {r : EnsuredBufReader} {e : Nat} {res : FillResult} {r' : EnsuredBufReader}
    (hgs : r.GoodState) (heq : r.fill_buf_to_expected_size e = (res, r')) :
    r'.GoodState ∧ r'.buf.length = r.buf.length ∧ r'.ensured_size = r.ensured_size ∧
      (∃ m, m ≤ r.inner.data.length ∧
        r'.buffer = r.buffer ++ r.inner.data.take m ∧
        r'.inner.data = r.inner.data.drop m) ∧
      (res = FillResult.invalidInput → r' = r ∧ r.buf.length < e) := by
  unfold fill_buf_to_expected_size at heq
  by_cases hfast : r.current_bytes ≥ e
  · rw [if_pos hfast] at heq
    simp only [Prod.mk.injEq] at heq
    obtain ⟨h1, h2⟩ := heq
    subst h1
    subst h2
    refine ⟨hgs, rfl, rfl, ⟨0, Nat.zero_le _, by simp, by simp⟩, ?_⟩
    intro h
    cases h
  · rw [if_neg hfast] at heq
    by_cases hbig : r.buf.length < e
    · rw [if_pos hbig] at heq
      simp only [Prod.mk.injEq] at heq
      obtain ⟨h1, h2⟩ := heq
      subst h1
      subst h2
      exact ⟨hgs, rfl, rfl, ⟨0, Nat.zero_le _, by simp, by simp⟩, fun _ => ⟨rfl, hbig⟩⟩
    · rw [if_neg hbig] at heq
      by_cases hslide : r.buf.length - r.pos < e
      · rw [if_pos hslide] at heq
        simp only [] at heq
        obtain ⟨m1, m2, m3, m4, m5, m6⟩ := move_buf_to_head_spec hgs
        have hgs1 : r.move_buf_to_head.GoodState := by
          refine ⟨?_, ?_⟩
          · rw [m1]
            exact Nat.zero_le _
          · rw [m2, m3]
            have := hgs.2
            omega
        have hsp1 : r.move_buf_to_head.pos + e ≤ r.move_buf_to_head.buf.length := by
          rw [m1, m3]
          omega
        obtain ⟨q1, q2, q3, q4, q5, m, hm, hb, hd⟩ :=
          fillLoopFuel_general _ _ e res r' (Nat.lt_succ_self _) hgs1 hsp1 heq
        rw [m5] at hm hb hd
        rw [m4] at hb
        refine ⟨q4, by rw [q2, m3], by rw [q3, m6], ⟨m, hm, hb, hd⟩, ?_⟩
        intro h
        exact absurd h q5
      · rw [if_neg hslide] at heq
        simp only [] at heq
        have hsp1 : r.pos + e ≤ r.buf.length := by
          have := hgs.1
          have := hgs.2
          omega
        obtain ⟨q1, q2, q3, q4, q5, m, hm, hb, hd⟩ :=
          fillLoopFuel_general _ _ e res r' (Nat.lt_succ_self _) hgs hsp1 heq
        refine ⟨q4, q2, q3, ⟨m, hm, hb, hd⟩, ?_⟩
        intro h
        exact absurd h q5

lemma fill_wf {r : EnsuredBufReader} {e : Nat}
    (hgs : r.GoodState) (hwf : r.inner.wf = true) (hcap : e ≤ r.buf.length) :
    ∃ r', r.fill_buf_to_expected_size e = (FillResult.ok, r') ∧ r'.inner.wf = true ∧
      min e (r.current_bytes + r.inner.data.length) ≤ r'.current_bytes := by
  unfold fill_buf_to_expected_size
  by_cases hfast : r.current_bytes ≥ e
  · rw [if_pos hfast]
    exact ⟨r, rfl, hwf, le_trans (Nat.min_le_left _ _) hfast⟩
  · rw [if_neg hfast, if_neg (Nat.not_lt.mpr hcap)]
    by_cases hslide : r.buf.length - r.pos < e
    · rw [if_pos hslide]
      simp only []
      obtain ⟨m1, m2, m3, m4, m5, m6⟩ := move_buf_to_head_spec hgs
      have hgs1 : r.move_buf_to_head.GoodState := by
        refine ⟨?_, ?_⟩
        · rw [m1]
          exact Nat.zero_le _
        · rw [m2, m3]
          have := hgs.2
          omega
      have hsp1 : r.move_buf_to_head.pos + e ≤ r.move_buf_to_head.buf.length := by
        rw [m1, m3]
        omega
      have hwf1 : r.move_buf_to_head.inner.wf = true := by
        rw [m5]
        exact hwf
      obtain ⟨r', hr', hwf', hmin⟩ :=
        fillLoopFuel_wf _ _ e (Nat.lt_succ_self _) hgs1 hsp1 hwf1
      refine ⟨r', hr', hwf', ?_⟩
      rw [m1, m2, m5, Nat.sub_zero] at hmin
      exact hmin
    · rw [if_neg hslide]
      simp only []
      have hsp1 : r.pos + e ≤ r.buf.length := by
        have := hgs.1
        have := hgs.2
        omega
      obtain ⟨r', hr', hwf', hmin⟩ :=
        fillLoopFuel_wf _ _ e (Nat.lt_succ_self _) hgs hsp1 hwf
      exact ⟨r', hr', hwf', hmin⟩

lemma fill_ne_invalid {r : EnsuredBufReader} {e : Nat}
    (hgs : r.GoodState) (he : e ≤ r.buf.length) :
    (r.fill_buf_to_expected_size e).1 ≠ FillResult.invalidInput := by
  rcases h : r.fill_buf_to_expected_size e with ⟨res, r'⟩
  intro hres
  dsimp only at hres
  obtain ⟨_, _, _, _, himp⟩ := fill_general hgs h
  have := (himp hres).2
  omega

/-! ### `consume` and `read` -/

lemma consume_tracking {r : EnsuredBufReader} {a : Nat}
    (hgs : r.GoodState) (ha : a ≤ r.current_bytes) :
    ({ r with pos := r.pos + a } : EnsuredBufReader).GoodState ∧
      ({ r with pos := r.pos + a } : EnsuredBufReader).buffer ++ r.inner.data =
        (r.buffer ++ r.inner.data).drop a := by
  have h1 := hgs.1
  have h2 := hgs.2
  have hbl : r.buffer.length = r.cap - r.pos := buffer_length hgs
  have ha' : a ≤ r.buffer.length := by
    rw [hbl]
    exact ha
  refine ⟨⟨?_, h2⟩, ?_⟩
  · show r.pos + a ≤ r.cap
    unfold current_bytes at ha
    omega
  · rw [buffer_consume, List.drop_append_eq_append_drop, Nat.sub_eq_zero_of_le ha',
      List.drop_zero]

lemma read_of_fill_ok {r r1 : EnsuredBufReader} (d : Nat)
    (h : r.fill_buf = (FillResult.ok, r1)) :
    r.read d = (FillResult.ok, min r1.buffer.length d,
      r1.buffer.take (min r1.buffer.length d),
      { r1 with pos := r1.pos + min r1.buffer.length d }) := by
  unfold read
  rw [h]

lemma read_of_fill_err {r r1 : EnsuredBufReader} (d : Nat) {res : FillResult}
    (h : r.fill_buf = (res, r1)) (hne : res ≠ FillResult.ok) :
    r.read d = (res, 0, [], r1) := by
  unfold read
  rw [h]
  cases res with
  | ok => exact absurd rfl hne
  | invalidInput => rfl
  | ioError => rfl

/-! ### Draining the reader through `Read::read` -/

lemma drain_spec :
    ∀ (fuel : Nat) (r : EnsuredBufReader) (ds : Nat → Nat) (i : Nat),
      r.buffer.length + r.inner.data.length < fuel →
      r.GoodState → r.inner.wf = true →
      1 ≤ r.ensured_size → r.ensured_size ≤ r.buf.length →
      (∀ j, 1 ≤ ds j) →
      drain fuel r ds i = (r.buffer ++ r.inner.data, true) := by
  intro fuel
  induction fuel with
  | zero =>
    intro r ds i hf
    omega
  | succ fuel ih =>
    intro r ds i hf hgs hwf he1 he2 hds
    obtain ⟨r1, hfill, hwf1, hmin⟩ := fill_wf hgs hwf he2
    have hfb : r.fill_buf = (FillResult.ok, r1) := hfill
    obtain ⟨hgs1, hlen1, hens1, ⟨m, hmle, hb1, hd1⟩, _⟩ := fill_general hgs hfill
    have hcontent : r1.buffer ++ r1.inner.data = r.buffer ++ r.inner.data := by
      rw [hb1, hd1, List.append_assoc, List.take_append_drop]
    have hlc : r1.buffer.length + r1.inner.data.length =
        r.buffer.length + r.inner.data.length := by
      have := congrArg List.length hcontent
      simpa [List.length_append] using this
    rw [drain, read_of_fill_ok (ds i) hfb]
    dsimp only
    by_cases hrem : r.buffer.length + r.inner.data.length = 0
    · have hbe : r.buffer = [] := List.length_eq_zero.mp (by omega)
      have hde : r.inner.data = [] := List.length_eq_zero.mp (by omega)
      have hb1e : r1.buffer = [] := by
        have h0 : r1.buffer ++ r1.inner.data = [] := by
          rw [hcontent, hbe, hde]
          rfl
        exact (List.append_eq_nil.mp h0).1
      rw [hb1e]
      simp [hbe, hde]
    · have hcur : r.buffer.length = r.current_bytes := buffer_length hgs
      have hb1len : r1.buffer.length = r1.current_bytes := buffer_length hgs1
      have hmin1 : 1 ≤ r1.current_bytes := by
        have h1 : 1 ≤ min r.ensured_size (r.current_bytes + r.inner.data.length) := by
          rw [Nat.le_min]
          exact ⟨he1, by omega⟩
        exact le_trans h1 hmin
      have hn1 : 1 ≤ min r1.buffer.length (ds i) := by
        rw [Nat.le_min]
        exact ⟨by omega, hds i⟩
      rw [if_neg (by omega : ¬ min r1.buffer.length (ds i) = 0)]
      have hkb : min r1.buffer.length (ds i) ≤ r1.current_bytes := by
        have := Nat.min_le_left r1.buffer.length (ds i)
        omega
      obtain ⟨hgs2, htrack2⟩ := consume_tracking hgs1 hkb
      have hdrop2 :
          ({ r1 with pos := r1.pos + min r1.buffer.length (ds i) } :
            EnsuredBufReader).buffer = r1.buffer.drop (min r1.buffer.length (ds i)) :=
        buffer_consume r1 _
      have hmeas :
          ({ r1 with pos := r1.pos + min r1.buffer.length (ds i) } :
            EnsuredBufReader).buffer.length + r1.inner.data.length < fuel := by
        rw [hdrop2, List.length_drop]
        omega
      have hih := ih { r1 with pos := r1.pos + min r1.buffer.length (ds i) } ds (i + 1)
        hmeas
        hgs2
        (by
          show r1.inner.wf = true
          exact hwf1)
        (by
          show 1 ≤ r1.ensured_size
          rw [hens1]
          exact he1)
        (by
          show r1.ensured_size ≤ r1.buf.length
          rw [hens1, hlen1]
          exact he2)
        hds
      rw [hih, hdrop2]
      show (_ ++ (_ ++ _), _) = _
      rw [← List.append_assoc, List.take_append_drop, hcontent]

/-! ### Reachable states -/

lemma reachable_invariant {r0 r : EnsuredBufReader}
    (hre : Reachable r0 r) (h0 : r0.GoodState) :
    r.GoodState ∧ r.buf.length = r0.buf.length ∧ r.ensured_size = r0.ensured_size ∧
      ∃ c, c ≤ (r0.buffer ++ r0.inner.data).length ∧
        r.buffer ++ r.inner.data = (r0.buffer ++ r0.inner.data).drop c := by
  induction hre with
  | refl => exact ⟨h0, rfl, rfl, 0, Nat.zero_le _, by rw [List.drop_zero]⟩
  | fill_step e res r r' hre heq ih =>
    obtain ⟨hgs, hlen, hens, c, hcle, hc⟩ := ih
    obtain ⟨hgs', hlen', hens', ⟨m, hm, hb, hd⟩, _⟩ := fill_general hgs heq
    refine ⟨hgs', hlen'.trans hlen, hens'.trans hens, c, hcle, ?_⟩
    rw [hb, hd, List.append_assoc, List.take_append_drop, hc]
  | consume_step a r r' hre heq ih =>
    obtain ⟨hgs, hlen, hens, c, hcle, hc⟩ := ih
    unfold consume at heq
    by_cases hle : a ≤ r.current_bytes
    · rw [if_pos hle] at heq
      simp only [Option.some.injEq] at heq
      subst heq
      obtain ⟨hgs', htrack⟩ := consume_tracking hgs hle
      refine ⟨hgs', hlen, hens, c + a, ?_, ?_⟩
      · have hbl : r.buffer.length = r.current_bytes := buffer_length hgs
        have hlc := congrArg List.length hc
        simp only [List.length_append, List.length_drop] at hlc
        simp only [List.length_append] at hcle ⊢
        unfold current_bytes at hle hbl
        omega
      · rw [htrack, hc, List.drop_drop]
    · rw [if_neg hle] at heq
      cases heq
  | read_step d n out res r r' hre heq ih =>
    obtain ⟨hgs, hlen, hens, c, hcle, hc⟩ := ih
    rcases hf : r.fill_buf with ⟨resf, r1⟩
    obtain ⟨hgs1, hlen1, hens1, ⟨m, hm, hb, hd⟩, _⟩ := fill_general hgs hf
    have hstep : r1.buffer ++ r1.inner.data = (r0.buffer ++ r0.inner.data).drop c := by
      rw [hb, hd, List.append_assoc, List.take_append_drop, hc]
    cases resf with
    | ok =>
      rw [read_of_fill_ok d hf] at heq
      simp only [Prod.mk.injEq] at heq
      obtain ⟨h1, h2, h3, h4⟩ := heq
      subst h4
      have hkb : min r1.buffer.length d ≤ r1.current_bytes := by
        have h := Nat.min_le_left r1.buffer.length d
        have hbl : r1.buffer.length = r1.current_bytes := buffer_length hgs1
        omega
      obtain ⟨hgs', htrack⟩ := consume_tracking hgs1 hkb
      refine ⟨hgs', hlen1.trans hlen, hens1.trans hens,
        c + min r1.buffer.length d, ?_, ?_⟩
      · have hlc := congrArg List.length hstep
        simp only [List.length_append, List.length_drop] at hlc
        simp only [List.length_append] at hcle ⊢
        have h := Nat.min_le_left r1.buffer.length d
        omega
      · rw [htrack, hstep, List.drop_drop]
    | invalidInput =>
      rw [read_of_fill_err d hf (by simp)] at heq
      simp only [Prod.mk.injEq] at heq
      obtain ⟨h1, h2, h3, h4⟩ := heq
      subst h4
      exact ⟨hgs1, hlen1.trans hlen, hens1.trans hens, c, hcle, hstep⟩
    | ioError =>
      rw [read_of_fill_err d hf (by simp)] at heq
      simp only [Prod.mk.injEq] at heq
      obtain ⟨h1, h2, h3, h4⟩ := heq
      subst h4
      exact ⟨hgs1, hlen1.trans hlen, hens1.trans hens, c, hcle, hstep⟩

lemma ctor_capacity_props {capacity ensured : Nat} {s : Source} {r0 : EnsuredBufReader}
    (h : with_capacity_and_ensured_size capacity ensured s = some r0) :
    r0.GoodState ∧ 1 ≤ r0.ensured_size ∧ r0.ensured_size ≤ r0.buf.length ∧
      r0.buffer = [] ∧ r0.inner = s := by
  unfold with_capacity_and_ensured_size at h
  by_cases h0 : ensured = 0
  · rw [if_pos h0] at h
    cases h
  · rw [if_neg h0] at h
    by_cases h1 : capacity < ensured
    · rw [if_pos h1] at h
      cases h
    · rw [if_neg h1] at h
      simp only [Option.some.injEq] at h
      subst h
      refine ⟨⟨Nat.le_refl 0, Nat.zero_le _⟩, ?_, ?_, ?_, rfl⟩
      · show 1 ≤ ensured
        omega
      · show ensured ≤ (List.replicate capacity 0).length
        rw [List.length_replicate]
        omega
      · simp [buffer]

lemma ctor_buffer_props {buf : List Nat} {ensured : Nat} {s : Source} {r0 : EnsuredBufReader}
    (h : from_buffer_and_ensured_size buf ensured s = some r0) :
    r0.GoodState ∧ 1 ≤ r0.ensured_size ∧ r0.ensured_size ≤ r0.buf.length ∧
      r0.buffer = [] ∧ r0.inner = s := by
  unfold from_buffer_and_ensured_size at h
  by_cases h0 : ensured = 0
  · rw [if_pos h0] at h
    cases h
  · rw [if_neg h0] at h
    by_cases h1 : buf.length < ensured
    · rw [if_pos h1] at h
      cases h
    · rw [if_neg h1] at h
      simp only [Option.some.injEq] at h
      subst h
      refine ⟨⟨Nat.le_refl 0, Nat.zero_le _⟩, ?_, ?_, ?_, rfl⟩
      · show 1 ≤ ensured
        omega
      · show ensured ≤ buf.length
        omega
      · simp [buffer]

lemma ctor_mut_ref_props {buf : List Nat} {ensured : Nat} {s : Source} {r0 : EnsuredBufReader}
    (h : from_mut_ref_and_ensured_size buf ensured s = some r0) :
    r0.GoodState ∧ 1 ≤ r0.ensured_size ∧ r0.ensured_size ≤ r0.buf.length ∧
      r0.buffer = [] ∧ r0.inner = s := by
  unfold from_mut_ref_and_ensured_size at h
  by_cases h0 : ensured = 0
  · rw [if_pos h0] at h
    cases h
  · rw [if_neg h0] at h
    by_cases h1 : buf.length < ensured
    · rw [if_pos h1] at h
      cases h
    · rw [if_neg h1] at h
      simp only [Option.some.injEq] at h
      subst h
      refine ⟨⟨Nat.le_refl 0, Nat.zero_le _⟩, ?_, ?_, ?_, rfl⟩
      · show 1 ≤ ensured
        omega
      · show ensured ≤ buf.length
        omega
      · simp [buffer]

lemma reachable_fill_buf_ne_invalid {r0 r : EnsuredBufReader}
    (h0 : r0.GoodState) (he : r0.ensured_size ≤ r0.buf.length) (hre : Reachable r0 r) :
    (r.fill_buf).1 ≠ FillResult.invalidInput := by
  obtain ⟨hgs, hlen, hens, _⟩ := reachable_invariant hre h0
  have h : r.ensured_size ≤ r.buf.length := by
    rw [hens, hlen]
    exact he
  exact fill_ne_invalid hgs h

end EnsuredBufReader

/-! ### The claims -/

/-- C1: for every finite byte sequence served by the underlying source
(a conforming source, which returns 0 only at end of stream) and every
valid configuration (capacity ≥ ensured_size ≥ 1, enforced by the
constructor), repeatedly calling `Read::read` with non-empty
destinations until it returns 0 yields exactly the original byte
sequence, in order, with no byte duplicated or lost. -/
theorem claim1_round_trip (data : List Nat) (sched : List Resp)
    (capacity ensured : Nat) (r0 : EnsuredBufReader) (ds : Nat → Nat) (fuel : Nat)
    (hwf : Source.wf ⟨data, sched⟩ = true)
    (hctor : EnsuredBufReader.with_capacity_and_ensured_size capacity ensured
      ⟨data, sched⟩ = some r0)
    (hds : ∀ j, 1 ≤ ds j) (hfuel : data.length < fuel) :
    EnsuredBufReader.drain fuel r0 ds 0 = (data, true) := by
  obtain ⟨hgs0, he1, he2, hb0, hin0⟩ := EnsuredBufReader.ctor_capacity_props hctor
  have hspec := EnsuredBufReader.drain_spec fuel r0 ds 0
    (by rw [hb0, hin0]; simpa using hfuel) hgs0 (by rw [hin0]; exact hwf) he1 he2 hds
  rw [hspec, hb0, hin0]
  simp

/-- C2: for every reader state (satisfying the cursor invariant) with a
conforming source and every `expected_size ≤ capacity`, the call
`fill_buf_to_expected_size expected_size` succeeds and returns a view
of length at least `min expected_size (buffered + obtainable)` bytes;
in particular `fill_buf` (that is, `peek ensured_size`) returns at
least `ensured_size` bytes whenever that many bytes remain. -/
theorem claim2_ensured_size (r : EnsuredBufReader) (e : Nat)
    (hgs : r.GoodState) (hwf : r.inner.wf = true) (hcap : e ≤ r.get_capacity) :
    (∃ r', r.fill_buf_to_expected_size e = (FillResult.ok, r') ∧
      min e (r.current_bytes + r.inner.data.length) ≤ r'.buffer.length) ∧
    (r.ensured_size ≤ r.get_capacity →
      r.ensured_size ≤ r.current_bytes + r.inner.data.length →
      ∃ r1, r.fill_buf = (FillResult.ok, r1) ∧ r.ensured_size ≤ r1.buffer.length) := by
  constructor
  · obtain ⟨r', hr', hwf', hmin⟩ := EnsuredBufReader.fill_wf hgs hwf hcap
    obtain ⟨hgs', _, _, _, _⟩ := EnsuredBufReader.fill_general hgs hr'
    have hbl : r'.buffer.length = r'.current_bytes := EnsuredBufReader.buffer_length hgs'
    refine ⟨r', hr', ?_⟩
    rw [hbl]
    exact hmin
  · intro hecap hrem
    obtain ⟨r1, hr1, hwf1, hmin⟩ := EnsuredBufReader.fill_wf hgs hwf hecap
    obtain ⟨hgs1, _, _, _, _⟩ := EnsuredBufReader.fill_general hgs hr1
    have hbl : r1.buffer.length = r1.current_bytes := EnsuredBufReader.buffer_length hgs1
    refine ⟨r1, hr1, ?_⟩
    rw [hbl]
    have hle : min r.ensured_size (r.current_bytes + r.inner.data.length) =
        r.ensured_size := Nat.min_eq_left hrem
    omega

/-- C3: for every reader state satisfying the cursor invariant, calling
`fill_buf_to_expected_size` with `expected_size > capacity` returns the
`InvalidInput` error and leaves the whole reader — in particular `pos`,
`cap` and the source — unchanged (so no read call is performed on the
underlying source). -/
theorem claim3_capacity_bound (r : EnsuredBufReader) (e : Nat)
    (hgs : r.GoodState) (hgt : r.get_capacity < e) :
    r.fill_buf_to_expected_size e = (FillResult.invalidInput, r) := by
  unfold EnsuredBufReader.fill_buf_to_expected_size
  have hfast : ¬ r.current_bytes ≥ e := by
    have h1 := hgs.1
    have h2 := hgs.2
    unfold EnsuredBufReader.get_capacity at hgt
    unfold EnsuredBufReader.current_bytes
    omega
  have hgt' : r.buf.length < e := hgt
  rw [if_neg hfast, if_pos hgt']

/-- C4: after any sequence of fill/consume/read operations from a
freshly constructed reader over stream `data`, the valid region
followed by the unread source bytes is exactly a suffix of `data` —
i.e. the valid region is precisely the contiguous segment of the
stream already fetched but not yet consumed; and the slide performed by
`move_buf_to_head` relocates the valid region to the start of the
store without changing its contents or length. -/
theorem claim4_valid_region :
    (∀ (data : List Nat) (sched : List Resp) (capacity ensured : Nat)
        (r0 r : EnsuredBufReader),
      EnsuredBufReader.with_capacity_and_ensured_size capacity ensured
        ⟨data, sched⟩ = some r0 →
      EnsuredBufReader.Reachable r0 r →
      ∃ c, c ≤ data.length ∧ r.buffer ++ r.inner.data = data.drop c) ∧
    (∀ r : EnsuredBufReader, r.GoodState →
      r.move_buf_to_head.buffer = r.buffer ∧ r.move_buf_to_head.pos = 0 ∧
        r.move_buf_to_head.buffer.length = r.buffer.length ∧
        r.move_buf_to_head.buf.length = r.buf.length) := by
  constructor
  · intro data sched capacity ensured r0 r hctor hre
    obtain ⟨hgs0, _, _, hb0, hin0⟩ := EnsuredBufReader.ctor_capacity_props hctor
    obtain ⟨_, _, _, c, hcle, hc⟩ := EnsuredBufReader.reachable_invariant hre hgs0
    rw [hb0, hin0] at hcle hc
    simp only [List.nil_append] at hcle hc
    exact ⟨c, hcle, hc⟩
  · intro r hgs
    obtain ⟨m1, m2, m3, m4, m5, m6⟩ := EnsuredBufReader.move_buf_to_head_spec hgs
    exact ⟨m4, m1, by rw [m4], m3⟩

/-- C5: the cursor invariant `0 ≤ pos ≤ cap ≤ capacity` holds after
construction and is preserved by `fill_buf_to_expected_size` (on
success or error), `fill_buf`, valid `consume` calls, and
`Read::read`. -/
theorem claim5_cursor_invariant :
    (∀ (capacity ensured : Nat) (s : Source) (r0 : EnsuredBufReader),
      EnsuredBufReader.with_capacity_and_ensured_size capacity ensured s = some r0 →
      r0.GoodState) ∧
    (∀ (r : EnsuredBufReader) (e : Nat) (res : FillResult) (r' : EnsuredBufReader),
      r.GoodState → r.fill_buf_to_expected_size e = (res, r') → r'.GoodState) ∧
    (∀ (r : EnsuredBufReader) (res : FillResult) (r' : EnsuredBufReader),
      r.GoodState → r.fill_buf = (res, r') → r'.GoodState) ∧
    (∀ (r : EnsuredBufReader) (a : Nat) (r' : EnsuredBufReader),
      r.GoodState → r.consume a = some r' → r'.GoodState) ∧
    (∀ (r : EnsuredBufReader) (d : Nat) (res : FillResult) (n : Nat) (out : List Nat)
        (r' : EnsuredBufReader),
      r.GoodState → r.read d = (res, n, out, r') → r'.GoodState) := by
  refine ⟨?_, ?_, ?_, ?_, ?_⟩
  · intro capacity ensured s r0 h
    exact (EnsuredBufReader.ctor_capacity_props h).1
  · intro r e res r' hgs heq
    exact (EnsuredBufReader.reachable_invariant
      (EnsuredBufReader.Reachable.fill_step e res r r'
        EnsuredBufReader.Reachable.refl heq) hgs).1
  · intro r res r' hgs heq
    exact (EnsuredBufReader.reachable_invariant
      (EnsuredBufReader.Reachable.fill_step r.ensured_size res r r'
        EnsuredBufReader.Reachable.refl heq) hgs).1
  · intro r a r' hgs heq
    exact (EnsuredBufReader.reachable_invariant
      (EnsuredBufReader.Reachable.consume_step a r r'
        EnsuredBufReader.Reachable.refl heq) hgs).1
  · intro r d res n out r' hgs heq
    exact (EnsuredBufReader.reachable_invariant
      (EnsuredBufReader.Reachable.read_step d n out res r r'
        EnsuredBufReader.Reachable.refl heq) hgs).1

/-- C6: if the valid region already holds at least `expected_size`
bytes then `fill_buf_to_expected_size` returns the reader completely
unchanged (same view, no source read, no data movement); consequently
two consecutive calls with no intervening consume return the same view
and the second call touches nothing, whenever the first returned at
least `n` bytes. -/
theorem claim6_fast_path_idempotent (r : EnsuredBufReader) (e n : Nat) :
    (e ≤ r.current_bytes → r.fill_buf_to_expected_size e = (FillResult.ok, r)) ∧
    (∀ r1, r.fill_buf_to_expected_size n = (FillResult.ok, r1) →
      n ≤ r1.current_bytes →
      r1.fill_buf_to_expected_size n = (FillResult.ok, r1)) := by
  have hfp : ∀ (s : EnsuredBufReader) (k : Nat), k ≤ s.current_bytes →
      s.fill_buf_to_expected_size k = (FillResult.ok, s) := by
    intro s k hk
    unfold EnsuredBufReader.fill_buf_to_expected_size
    rw [if_pos hk]
  exact ⟨hfp r e, fun r1 _ h2 => hfp r1 n h2⟩

/-- C7: `Read::read` obtains a view via `fill_buf` (a `peek` of
`ensured_size` bytes), copies exactly `min view.length dest.length`
bytes, consumes exactly that many (a valid `consume`), and returns the
count; and with a conforming source it returns 0 only at true end of
stream, with nothing buffered and nothing left in the source. -/
theorem claim7_read_contract (r : EnsuredBufReader) (d : Nat) (hgs : r.GoodState) :
    (∀ r1, r.fill_buf = (FillResult.ok, r1) →
      r.read d = (FillResult.ok, min r1.buffer.length d,
        r1.buffer.take (min r1.buffer.length d),
        { r1 with pos := r1.pos + min r1.buffer.length d }) ∧
      r1.consume (min r1.buffer.length d) =
        some { r1 with pos := r1.pos + min r1.buffer.length d }) ∧
    (r.inner.wf = true → 1 ≤ r.ensured_size → r.ensured_size ≤ r.buf.length → 1 ≤ d →
      ∀ res n out r', r.read d = (res, n, out, r') → n = 0 →
        res = FillResult.ok ∧ r'.buffer = [] ∧ r'.inner.data = []) := by
  constructor
  · intro r1 hf
    obtain ⟨hgs1, _, _, _, _⟩ := EnsuredBufReader.fill_general hgs hf
    have hbl : r1.buffer.length = r1.current_bytes := EnsuredBufReader.buffer_length hgs1
    refine ⟨EnsuredBufReader.read_of_fill_ok d hf, ?_⟩
    unfold EnsuredBufReader.consume
    rw [if_pos (by omega : min r1.buffer.length d ≤ r1.current_bytes)]
  · intro hwf he1 he2 hd res n out r' hread hn0
    obtain ⟨r1, hfill, hwf1, hmin⟩ := EnsuredBufReader.fill_wf hgs hwf he2
    have hfb : r.fill_buf = (FillResult.ok, r1) := hfill
    rw [EnsuredBufReader.read_of_fill_ok d hfb] at hread
    simp only [Prod.mk.injEq] at hread
    obtain ⟨h1, h2, h3, h4⟩ := hread
    subst h1
    obtain ⟨hgs1, hlen1, hens1, ⟨m, hm, hb, hdta⟩, _⟩ :=
      EnsuredBufReader.fill_general hgs hfill
    have hbl1 : r1.buffer.length = r1.current_bytes := EnsuredBufReader.buffer_length hgs1
    have hcur0 : r1.buffer.length = 0 := by omega
    have hbl : r.buffer.length = r.current_bytes := EnsuredBufReader.buffer_length hgs
    have hrem0 : r.current_bytes + r.inner.data.length = 0 := by omega
    have hdr : r.inner.data = [] := List.length_eq_zero.mp (by omega)
    subst h4
    refine ⟨rfl, ?_, ?_⟩
    · rw [EnsuredBufReader.buffer_consume, List.length_eq_zero.mp hcur0, List.drop_nil]
    · show r1.inner.data = []
      rw [hdta, hdr, List.drop_nil]

/-- C8: if the source reports an I/O error during a fill attempt,
`fill_buf_to_expected_size` propagates it, the cursor invariant still
holds, and the valid region is exactly the old valid region extended by
the bytes pulled by the earlier successful source reads of the same
call — those bytes remain valid and consumable. -/
theorem claim8_io_error (r : EnsuredBufReader) (e : Nat) (r' : EnsuredBufReader)
    (hgs : r.GoodState)
    (heq : r.fill_buf_to_expected_size e = (FillResult.ioError, r')) :
    r'.GoodState ∧ r'.buf.length = r.buf.length ∧ r'.ensured_size = r.ensured_size ∧
      ∃ m, m ≤ r.inner.data.length ∧
        r'.buffer = r.buffer ++ r.inner.data.take m ∧
        r'.inner.data = r.inner.data.drop m := by
  obtain ⟨a, b, c, dd, _⟩ := EnsuredBufReader.fill_general hgs heq
  exact ⟨a, b, c, dd⟩

/-- C9: `consume amt` with `amt ≤ cap - pos` advances `pos` by exactly
`amt` and changes nothing else; with `amt > cap - pos` it panics (the
assertion fires, modelled as `none`), a fatal contract violation rather
than a recoverable error. -/
theorem claim9_consume_contract (r : EnsuredBufReader) (amt : Nat) :
    (amt ≤ r.current_bytes → r.consume amt = some { r with pos := r.pos + amt }) ∧
    (r.current_bytes < amt → r.consume amt = none) := by
  constructor
  · intro h
    unfold EnsuredBufReader.consume
    rw [if_pos h]
  · intro h
    unfold EnsuredBufReader.consume
    rw [if_neg (by omega)]

/-- C10: for every reader produced by a public constructor and every
state reachable from it, `fill_buf` can never return the `InvalidInput`
("expected size too large") error: construction enforces
`ensured_size ≤ capacity`, no operation changes either field, and so
that branch is unreachable. -/
theorem claim10_fill_buf_never_invalid :
    (∀ (capacity ensured : Nat) (s : Source) (r0 r : EnsuredBufReader),
      EnsuredBufReader.with_capacity_and_ensured_size capacity ensured s = some r0 →
      EnsuredBufReader.Reachable r0 r →
      (r.fill_buf).1 ≠ FillResult.invalidInput) ∧
    (∀ (buf : List Nat) (ensured : Nat) (s : Source) (r0 r : EnsuredBufReader),
      EnsuredBufReader.from_buffer_and_ensured_size buf ensured s = some r0 →
      EnsuredBufReader.Reachable r0 r →
      (r.fill_buf).1 ≠ FillResult.invalidInput) ∧
    (∀ (buf : List Nat) (ensured : Nat) (s : Source) (r0 r : EnsuredBufReader),
      EnsuredBufReader.from_mut_ref_and_ensured_size buf ensured s = some r0 →
      EnsuredBufReader.Reachable r0 r →
      (r.fill_buf).1 ≠ FillResult.invalidInput) ∧
    (∀ (s : Source) (r0 r : EnsuredBufReader),
      EnsuredBufReader.new s = some r0 →
      EnsuredBufReader.Reachable r0 r →
      (r.fill_buf).1 ≠ FillResult.invalidInput) ∧
    (∀ (buf : List Nat) (s : Source) (r0 r : EnsuredBufReader),
      EnsuredBufReader.from_buffer buf s = some r0 →
      EnsuredBufReader.Reachable r0 r →
      (r.fill_buf).1 ≠ FillResult.invalidInput) ∧
    (∀ (buf : List Nat) (s : Source) (r0 r : EnsuredBufReader),
      EnsuredBufReader.from_mut_ref buf s = some r0 →
      EnsuredBufReader.Reachable r0 r →
      (r.fill_buf).1 ≠ FillResult.invalidInput) := by
  refine ⟨?_, ?_, ?_, ?_, ?_, ?_⟩
  · intro capacity ensured s r0 r hctor hre
    obtain ⟨hgs0, _, he2, _, _⟩ := EnsuredBufReader.ctor_capacity_props hctor
    exact EnsuredBufReader.reachable_fill_buf_ne_invalid hgs0 he2 hre
  · intro buf ensured s r0 r hctor hre
    obtain ⟨hgs0, _, he2, _, _⟩ := EnsuredBufReader.ctor_buffer_props hctor
    exact EnsuredBufReader.reachable_fill_buf_ne_invalid hgs0 he2 hre
  · intro buf ensured s r0 r hctor hre
    obtain ⟨hgs0, _, he2, _, _⟩ := EnsuredBufReader.ctor_mut_ref_props hctor
    exact EnsuredBufReader.reachable_fill_buf_ne_invalid hgs0 he2 hre
  · intro s r0 r hctor hre
    obtain ⟨hgs0, _, he2, _, _⟩ :=
      EnsuredBufReader.ctor_capacity_props (hctor :
        EnsuredBufReader.with_capacity_and_ensured_size
          EnsuredBufReader.DEFAULT_BUFFER_SIZE
          EnsuredBufReader.DEFAULT_ENSURED_BYTES s = some r0)
    exact EnsuredBufReader.reachable_fill_buf_ne_invalid hgs0 he2 hre
  · intro buf s r0 r hctor hre
    unfold EnsuredBufReader.from_buffer at hctor
    by_cases hlen : buf.length < EnsuredBufReader.DEFAULT_ENSURED_BYTES
    · rw [if_pos hlen] at hctor
      cases hctor
    · rw [if_neg hlen] at hctor
      obtain ⟨hgs0, _, he2, _, _⟩ := EnsuredBufReader.ctor_buffer_props hctor
      exact EnsuredBufReader.reachable_fill_buf_ne_invalid hgs0 he2 hre
  · intro buf s r0 r hctor hre
    unfold EnsuredBufReader.from_mut_ref at hctor
    by_cases hlen : buf.length < EnsuredBufReader.DEFAULT_ENSURED_BYTES
    · rw [if_pos hlen] at hctor
      cases hctor
    · rw [if_neg hlen] at hctor
      obtain ⟨hgs0, _, he2, _, _⟩ := EnsuredBufReader.ctor_mut_ref_props hctor
      exact EnsuredBufReader.reachable_fill_buf_ne_invalid hgs0 he2 hre

/-! ### Witnesses -/

/-- Witness for C1 at a concrete input. -/
theorem claim1_witness :
    EnsuredBufReader.drain 4 sampleReader (fun _ => 1) 0 = ([1, 2, 3], true) :=
  claim1_round_trip [1, 2, 3] [] 4 2 sampleReader (fun _ => 1) 4 (by decide) (by decide)
    (fun _ => Nat.le_refl 1) (by decide)

/-- Witness for C2 at a concrete input. -/
theorem claim2_witness :
    (∃ r', sampleReader.fill_buf_to_expected_size 2 = (FillResult.ok, r') ∧
      min 2 (sampleReader.current_bytes + sampleReader.inner.data.length) ≤
        r'.buffer.length) ∧
    (sampleReader.ensured_size ≤ sampleReader.get_capacity →
      sampleReader.ensured_size ≤
        sampleReader.current_bytes + sampleReader.inner.data.length →
      ∃ r1, sampleReader.fill_buf = (FillResult.ok, r1) ∧
        sampleReader.ensured_size ≤ r1.buffer.length) :=
  claim2_ensured_size sampleReader 2 (by decide) (by decide) (by decide)

/-- Witness for C3 at a concrete input. -/
theorem claim3_witness :
    smallReader.fill_buf_to_expected_size 3 = (FillResult.invalidInput, smallReader) :=
  claim3_capacity_bound smallReader 3 (by decide) (by decide)

/-- Witness for C4 at a concrete input. -/
theorem claim4_witness :
    (∃ c, c ≤ ([1, 2, 3] : List Nat).length ∧
      sampleReader.buffer ++ sampleReader.inner.data = ([1, 2, 3] : List Nat).drop c) ∧
    (midReader.move_buf_to_head.buffer = midReader.buffer ∧
      midReader.move_buf_to_head.pos = 0 ∧
      midReader.move_buf_to_head.buffer.length = midReader.buffer.length ∧
      midReader.move_buf_to_head.buf.length = midReader.buf.length) :=
  ⟨claim4_valid_region.1 [1, 2, 3] [] 4 2 sampleReader sampleReader (by decide)
      EnsuredBufReader.Reachable.refl,
    claim4_valid_region.2 midReader (by decide)⟩

/-- Witness for C5 at a concrete input. -/
theorem claim5_witness :
    sampleReader.GoodState ∧
      (⟨⟨[], []⟩, [5, 6], 1, 2, 1⟩ : EnsuredBufReader).GoodState :=
  ⟨claim5_cursor_invariant.1 4 2 sampleSource sampleReader (by decide),
    claim5_cursor_invariant.2.2.2.1 midReader 1 ⟨⟨[], []⟩, [5, 6], 1, 2, 1⟩
      (by decide) (by decide)⟩

/-- Witness for C6 at a concrete input. -/
theorem claim6_witness :
    midReader.fill_buf_to_expected_size 1 = (FillResult.ok, midReader) :=
  (claim6_fast_path_idempotent midReader 1 1).1 (by decide)

/-- Witness for C7 at a concrete input. -/
theorem claim7_witness :
    sampleReader.read 1 = (FillResult.ok, min filledReader.buffer.length 1,
      filledReader.buffer.take (min filledReader.buffer.length 1),
      { filledReader with pos := filledReader.pos + min filledReader.buffer.length 1 }) ∧
    filledReader.consume (min filledReader.buffer.length 1) =
      some { filledReader with pos := filledReader.pos + min filledReader.buffer.length 1 } :=
  (claim7_read_contract sampleReader 1 (by decide)).1 filledReader (by decide)

/-- Witness for C8 at a concrete input. -/
theorem claim8_witness :
    errReaderAfter.GoodState ∧ errReaderAfter.buf.length = errReader.buf.length ∧
      errReaderAfter.ensured_size = errReader.ensured_size ∧
      ∃ m, m ≤ errReader.inner.data.length ∧
        errReaderAfter.buffer = errReader.buffer ++ errReader.inner.data.take m ∧
        errReaderAfter.inner.data = errReader.inner.data.drop m :=
  claim8_io_error errReader 2 errReaderAfter (by decide) (by decide)

/-- Witness for C9 at a concrete input. -/
theorem claim9_witness :
    midReader.consume 1 = some { midReader with pos := midReader.pos + 1 } :=
  (claim9_consume_contract midReader 1).1 (by decide)

/-- Witness for C10 at a concrete input. -/
theorem claim10_witness :
    (sampleReader.fill_buf).1 ≠ FillResult.invalidInput :=
  claim10_fill_buf_never_invalid.1 4 2 sampleSource sampleReader sampleReader
    (by decide) EnsuredBufReader.Reachable.refl

/-- C7 as universally stated is false for an empty destination: with
two bytes still buffered, `read` into a 0-length destination returns
count 0 even though this is not end of stream — there are bytes left to
serve. -/
theorem claim7_counterexample :
    midReader.read 0 = (FillResult.ok, 0, [], midReader) ∧
      midReader.buffer ≠ [] ∧ midReader.current_bytes = 2 := by
  decide
